import Mathlib

/-!
Verification development for `update_story_ids.py`.

The script renumbers `**Story ID**:` fields inside markdown planning
documents.  We give a shallow embedding: documents are `List Char`
texts, the two regular expressions of the script are modelled by
explicit scanning functions, Python's stable `sorted`/`list.sort` is
modelled by a stable insertion sort, and the whole `main` becomes a
pure function from an optional directory listing to a run result.
-/

namespace StoryIds

/-- ASCII whitespace recognised by the `\s` class of the script's regexes
(the documents are ASCII, so we model the ASCII fragment). -/
def isSpaceChar (c : Char) : Bool :=
  c.toNat = 32 || c.toNat = 9 || c.toNat = 10 || c.toNat = 13 || c.toNat = 11 || c.toNat = 12

/-- ASCII digit, the `\d` class used for the epic number. -/
def isAsciiDigit (c : Char) : Bool :=
  48 ≤ c.toNat && c.toNat ≤ 57

/-- The `[A-Za-z0-9\-]` class used for the existing story-identifier value. -/
def isStoryValChar (c : Char) : Bool :=
  (65 ≤ c.toNat && c.toNat ≤ 90) || (97 ≤ c.toNat && c.toNat ≤ 122) ||
    (48 ≤ c.toNat && c.toNat ≤ 57) || c.toNat = 45

/-- The literal label of an epic identifier line. -/
def epicLabel : List Char := ("**Epic ID**:").data

/-- The literal label of a story identifier line. -/
def storyLabel : List Char := ("**Story ID**:").data

/-- The literal `MS-` prefix of every identifier value. -/
def msLit : List Char := ("MS-").data

/-- Consume a literal from the front of a text, as a regex literal does. -/
def dropLit : List Char → List Char → Option (List Char)
  | [], s => some s
  | _ :: _, [] => none
  | c :: cs, d :: ds => if c = d then dropLit cs ds else none

/-- `true` when the head of the text, if any, is not a story-value character. -/
def headNotVal (l : List Char) : Bool :=
  match l with
  | [] => true
  | c :: _ => !isStoryValChar c

theorem dropLit_eq_some {lit s r : List Char} (h : dropLit lit s = some r) :
    s = lit ++ r := by
  induction lit generalizing s with
  | nil =>
    have hs : s = r := by simpa [dropLit] using h
    simpa using hs
  | cons c cs ih =>
    cases s with
    | nil => simp [dropLit] at h
    | cons d ds =>
      by_cases hc : c = d
      · subst hc
        simpa using ih (by simpa [dropLit] using h)
      · simp [dropLit, hc] at h

theorem dropLit_append (lit r : List Char) : dropLit lit (lit ++ r) = some r := by
  induction lit with
  | nil => rfl
  | cons c cs ih => simp [dropLit, ih]

theorem dropLit_length {lit s r : List Char} (h : dropLit lit s = some r) :
    s.length = lit.length + r.length := by
  have := dropLit_eq_some h
  subst this
  simp

/-- Splitting `takeWhile`/`dropWhile` around an explicit boundary. -/
theorem takeWhile_append_of {p : Char → Bool} {pre rest : List Char}
    (hpre : ∀ c ∈ pre, p c = true)
    (hrest : ∀ c, rest.head? = some c → p c = false) :
    (pre ++ rest).takeWhile p = pre ∧ (pre ++ rest).dropWhile p = rest := by
  induction pre with
  | nil =>
    cases rest with
    | nil => simp
    | cons c cs =>
      have := hrest c rfl
      simp [List.takeWhile, List.dropWhile, this]
  | cons a pre ih =>
    have ha : p a = true := hpre a (by simp)
    have ih' := ih (fun c hc => hpre c (by simp [hc]))
    simp [List.takeWhile, List.dropWhile, ha, ih'.1, ih'.2]

theorem head?_dropWhile_not {p : Char → Bool} (l : List Char) :
    ∀ c, (l.dropWhile p).head? = some c → p c = false := by
  induction l with
  | nil => intro c h; simp at h
  | cons a l ih =>
    intro c h
    by_cases ha : p a
    · exact ih c (by simpa [List.dropWhile, ha] using h)
    · have : c = a := by
        simp [List.dropWhile, ha] at h
        exact h.symm
      subst this
      simpa using ha

/-- One attempt of the story pattern
`(\*\*Story ID\*\*:\s*)MS-[A-Za-z0-9\-]+` anchored at the front of the
text.  On success it returns the first capture group (label plus
whitespace) and the remainder after the greedy value. -/
def storyMatchHere (s : List Char) : Option (List Char × List Char) :=
  match dropLit storyLabel s with
  | none => none
  | some r1 =>
    match dropLit msLit (r1.dropWhile isSpaceChar) with
    | none => none
    | some r3 =>
      if r3.takeWhile isStoryValChar = [] then none
      else some (storyLabel ++ r1.takeWhile isSpaceChar, r3.dropWhile isStoryValChar)

/-- One attempt of the epic pattern `\*\*Epic ID\*\*:\s*MS-(\d+)` anchored at
the front of the text, returning the parsed epic number. -/
def epicMatchHere (s : List Char) : Option Nat :=
  match dropLit epicLabel s with
  | none => none
  | some r1 =>
    match dropLit msLit (r1.dropWhile isSpaceChar) with
    | none => none
    | some r3 =>
      if r3.takeWhile isAsciiDigit = [] then none
      else some (((r3.takeWhile isAsciiDigit).map (fun c => c.toNat - 48)).foldl
        (fun a d => 10 * a + d) 0)

/-- `re.search` for the epic pattern: try every position left to right. -/
def findEpicNum : List Char → Option Nat
  | [] => none
  | c :: rest =>
    match epicMatchHere (c :: rest) with
    | some n => some n
    | none => findEpicNum rest

/-- Decimal digits of a number, most significant first (fuelled helper). -/
def natDigitsAux : Nat → Nat → List Char
  | 0, _ => []
  | fuel + 1, n =>
    if n < 10 then [Nat.digitChar n]
    else natDigitsAux fuel (n / 10) ++ [Nat.digitChar (n % 10)]

/-- Decimal rendering of a number, as Python's `f"{n}"` produces. -/
def natDigits (n : Nat) : List Char := natDigitsAux (n + 1) n

theorem digitChar_isDigit {n : Nat} (h : n < 10) :
    isAsciiDigit (Nat.digitChar n) = true := by
  interval_cases n <;> decide

theorem natDigitsAux_ne_nil (fuel n : Nat) : natDigitsAux (fuel + 1) n ≠ [] := by
  by_cases h : n < 10 <;> simp [natDigitsAux, h]

theorem natDigits_ne_nil (n : Nat) : natDigits n ≠ [] := natDigitsAux_ne_nil n n

theorem natDigitsAux_all_digit (fuel : Nat) :
    ∀ n, ∀ c ∈ natDigitsAux fuel n, isAsciiDigit c = true := by
  induction fuel with
  | zero => intro n c hc; simp [natDigitsAux] at hc
  | succ fuel ih =>
    intro n c hc
    by_cases h : n < 10
    · simp [natDigitsAux, h] at hc
      subst hc
      exact digitChar_isDigit h
    · simp [natDigitsAux, h] at hc
      rcases hc with hc | hc
      · exact ih _ c hc
      · subst hc
        exact digitChar_isDigit (Nat.mod_lt _ (by omega))

theorem natDigits_all_digit (n : Nat) : ∀ c ∈ natDigits n, isAsciiDigit c = true :=
  natDigitsAux_all_digit (n + 1) n

theorem digit_isVal {c : Char} (h : isAsciiDigit c = true) : isStoryValChar c = true := by
  simp [isAsciiDigit] at h
  simp [isStoryValChar]
  omega

theorem digit_not_space {c : Char} (h : isAsciiDigit c = true) : isSpaceChar c = false := by
  simp [isAsciiDigit] at h
  simp [isSpaceChar]
  omega

theorem val_not_space {c : Char} (h : isStoryValChar c = true) : isSpaceChar c = false := by
  simp [isStoryValChar] at h
  simp [isSpaceChar]
  omega

theorem storyLabel_no_digit : ∀ c ∈ storyLabel, isAsciiDigit c = false := by decide

theorem msLit_no_digit : ∀ c ∈ msLit, isAsciiDigit c = false := by decide

theorem storyMatchHere_nil : storyMatchHere [] = none := by decide

/-- A text of the shape label, whitespace, `MS-`, maximal value, remainder is
matched by the story pattern, whatever the value is. -/
theorem storyMatchHere_construct {sp v t : List Char}
    (hsp : ∀ c ∈ sp, isSpaceChar c = true)
    (hv : v ≠ []) (hval : ∀ c ∈ v, isStoryValChar c = true)
    (ht : headNotVal t = true) :
    storyMatchHere (storyLabel ++ sp ++ msLit ++ v ++ t) = some (storyLabel ++ sp, t) := by
  have hM : ∀ c, (msLit ++ (v ++ t)).head? = some c → isSpaceChar c = false := by
    intro c hc
    have : c = 'M' := by simp [msLit] at hc; exact hc.symm
    subst this
    decide
  have h2 := @takeWhile_append_of isSpaceChar sp (msLit ++ (v ++ t)) hsp hM
  have ht' : ∀ c, t.head? = some c → isStoryValChar c = false := by
    intro c hc
    cases t with
    | nil => simp at hc
    | cons x xs =>
      have : c = x := by simp at hc; exact hc.symm
      subst this
      simpa [headNotVal] using ht
  have h4 := @takeWhile_append_of isStoryValChar v t hval ht'
  have hrw : storyLabel ++ sp ++ msLit ++ v ++ t =
      storyLabel ++ (sp ++ (msLit ++ (v ++ t))) := by simp
  rw [hrw]
  simp only [storyMatchHere, dropLit_append]
  rw [h2.2]
  simp only [dropLit_append]
  rw [h4.1, h4.2, h2.1]
  simp [hv]

/-- Inversion of a successful story match: the text decomposes into label,
whitespace, `MS-`, a nonempty maximal value, and the remainder. -/
theorem storyMatchHere_inv {s g r : List Char}
    (h : storyMatchHere s = some (g, r)) :
    ∃ sp v, s = storyLabel ++ sp ++ msLit ++ v ++ r ∧ g = storyLabel ++ sp ∧
      (∀ c ∈ sp, isSpaceChar c = true) ∧ v ≠ [] ∧
      (∀ c ∈ v, isStoryValChar c = true) ∧ headNotVal r = true := by
  unfold storyMatchHere at h
  cases h1 : dropLit storyLabel s with
  | none => rw [h1] at h; simp at h
  | some r1 =>
    rw [h1] at h
    dsimp only [] at h
    cases h3 : dropLit msLit (r1.dropWhile isSpaceChar) with
    | none => rw [h3] at h; simp at h
    | some r3 =>
      rw [h3] at h
      dsimp only [] at h
      by_cases hv : r3.takeWhile isStoryValChar = []
      · simp [hv] at h
      · simp [hv] at h
        refine ⟨r1.takeWhile isSpaceChar, r3.takeWhile isStoryValChar, ?_, ?_, ?_, hv, ?_, ?_⟩
        · have hs : s = storyLabel ++ r1 := dropLit_eq_some h1
          have hr2 : r1.dropWhile isSpaceChar = msLit ++ r3 := dropLit_eq_some h3
          have hr1 : r1 = r1.takeWhile isSpaceChar ++
              (msLit ++ (r3.takeWhile isStoryValChar ++ r)) := by
            conv_lhs => rw [← List.takeWhile_append_dropWhile isSpaceChar r1]
            congr 1
            rw [hr2]
            congr 1
            conv_lhs => rw [← List.takeWhile_append_dropWhile isStoryValChar r3]
            rw [h.2]
          rw [hs]
          conv_lhs => rw [hr1]
          simp
        · exact h.1.symm
        · intro c hc; exact List.mem_takeWhile_imp hc
        · intro c hc; exact List.mem_takeWhile_imp hc
        · rw [← h.2]
          cases hd : (r3.dropWhile isStoryValChar).head? with
          | none =>
            have : r3.dropWhile isStoryValChar = [] := by
              cases hl : r3.dropWhile isStoryValChar with
              | nil => rfl
              | cons x xs => rw [hl] at hd; simp at hd
            simp [headNotVal, this]
          | some c =>
            have hc := @head?_dropWhile_not isStoryValChar r3 c hd
            cases hl : r3.dropWhile isStoryValChar with
            | nil => simp [headNotVal]
            | cons x xs =>
              rw [hl] at hd
              have : c = x := by simp at hd; exact hd.symm
              subst this
              simp [headNotVal, hc]

theorem storyMatchHere_some_length {s g r : List Char}
    (h : storyMatchHere s = some (g, r)) : r.length < s.length := by
  obtain ⟨sp, v, hs, -, -, hv, -, -⟩ := storyMatchHere_inv h
  subst hs
  cases v with
  | nil => exact absurd rfl hv
  | cons x xs => simp [storyLabel, msLit]; omega

/-- Result of running the story substitution over one text: the rewritten
text, the identifiers assigned (in textual order, one per replacement, so the
replacement count is `ids.length`), and the counter afterwards. -/
structure SubnRes where
  text : List Char
  ids : List Nat
  next : Nat
deriving DecidableEq

/-- Fuelled worker for `story_pattern.subn(repl, text)`: scan left to right,
replace each match by the captured group followed by `MS-` and the current
counter, and increment the counter. -/
def subnStoryFuel : Nat → Nat → List Char → SubnRes
  | 0, c, s => ⟨s, [], c⟩
  | _ + 1, c, [] => ⟨[], [], c⟩
  | fuel + 1, c, x :: rest =>
    match storyMatchHere (x :: rest) with
    | some (g, after) =>
      ⟨g ++ msLit ++ natDigits c ++ (subnStoryFuel fuel (c + 1) after).text,
        c :: (subnStoryFuel fuel (c + 1) after).ids,
        (subnStoryFuel fuel (c + 1) after).next⟩
    | none =>
      ⟨x :: (subnStoryFuel fuel c rest).text,
        (subnStoryFuel fuel c rest).ids,
        (subnStoryFuel fuel c rest).next⟩

/-- `story_pattern.subn(repl, text)` with the counter threaded explicitly. -/
def subnStory (c : Nat) (s : List Char) : SubnRes := subnStoryFuel s.length c s

theorem subnStoryFuel_congr :
    ∀ fuel₁ fuel₂ c (s : List Char), s.length ≤ fuel₁ → s.length ≤ fuel₂ →
      subnStoryFuel fuel₁ c s = subnStoryFuel fuel₂ c s := by
  intro fuel₁
  induction fuel₁ with
  | zero =>
    intro fuel₂ c s h1 _
    have : s = [] := by cases s with | nil => rfl | cons a l => simp at h1
    subst this
    cases fuel₂ <;> rfl
  | succ f ih =>
    intro fuel₂ c s h1 h2
    cases s with
    | nil => cases fuel₂ <;> rfl
    | cons x rest =>
      cases fuel₂ with
      | zero => simp at h2
      | succ f2 =>
        cases hm : storyMatchHere (x :: rest) with
        | some p =>
          obtain ⟨g, after⟩ := p
          have hlen : after.length < (x :: rest).length := storyMatchHere_some_length hm
          have ha1 : after.length ≤ f := by simp at h1 hlen ⊢; omega
          have ha2 : after.length ≤ f2 := by simp at h2 hlen ⊢; omega
          simp only [subnStoryFuel, hm]
          rw [ih f2 (c + 1) after ha1 ha2]
        | none =>
          have hr1 : rest.length ≤ f := by simp at h1; omega
          have hr2 : rest.length ≤ f2 := by simp at h2; omega
          simp only [subnStoryFuel, hm]
          rw [ih f2 c rest hr1 hr2]

theorem subnStory_nil (c : Nat) : subnStory c [] = ⟨[], [], c⟩ := rfl

theorem subnStory_cons_none {x : Char} {rest : List Char} (c : Nat)
    (h : storyMatchHere (x :: rest) = none) :
    subnStory c (x :: rest) =
      ⟨x :: (subnStory c rest).text, (subnStory c rest).ids, (subnStory c rest).next⟩ := by
  unfold subnStory
  simp only [List.length_cons, subnStoryFuel, h]

theorem subnStory_cons_some {s g after : List Char} (c : Nat)
    (h : storyMatchHere s = some (g, after)) :
    subnStory c s =
      ⟨g ++ msLit ++ natDigits c ++ (subnStory (c + 1) after).text,
        c :: (subnStory (c + 1) after).ids, (subnStory (c + 1) after).next⟩ := by
  cases s with
  | nil => rw [storyMatchHere_nil] at h; exact absurd h (by simp)
  | cons x rest =>
    have hlen : after.length < (x :: rest).length := storyMatchHere_some_length h
    unfold subnStory
    simp only [List.length_cons, subnStoryFuel, h]
    rw [subnStoryFuel_congr rest.length after.length (c + 1) after
      (by simp at hlen; omega) (by omega)]

/-- The rewrite never changes the first character of a text (a replacement
starts with the preserved label). -/
theorem subnStoryFuel_head? :
    ∀ fuel c (s : List Char), (subnStoryFuel fuel c s).text.head? = s.head? := by
  intro fuel
  induction fuel with
  | zero => intro c s; rfl
  | succ f ih =>
    intro c s
    cases s with
    | nil => rfl
    | cons x rest =>
      simp only [subnStoryFuel]
      cases hm : storyMatchHere (x :: rest) with
      | some p =>
        obtain ⟨g, after⟩ := p
        obtain ⟨sp, v, hs, hg, -, -, -, -⟩ := storyMatchHere_inv hm
        subst hg
        have : x = '*' := by
          have := congrArg List.head? hs
          simpa [storyLabel] using this
        subst this
        simp [storyLabel]
      | none => simp

theorem subnStory_head? (c : Nat) (s : List Char) :
    (subnStory c s).text.head? = s.head? := subnStoryFuel_head? _ _ _

theorem subnStory_headNotVal {s : List Char} (c : Nat) (h : headNotVal s = true) :
    headNotVal (subnStory c s).text = true := by
  have hh := subnStory_head? c s
  cases ht : (subnStory c s).text with
  | nil => simp [headNotVal]
  | cons y ys =>
    rw [ht] at hh
    cases s with
    | nil => simp at hh
    | cons x xs =>
      simp at hh
      subst hh
      simpa [headNotVal] using h

/-- The identifiers assigned by one text scan are consecutive starting at the
incoming counter, and the counter leaves advanced by the number of matches. -/
theorem subnStoryFuel_ids :
    ∀ fuel c (s : List Char),
      (subnStoryFuel fuel c s).ids = List.range' c (subnStoryFuel fuel c s).ids.length ∧
      (subnStoryFuel fuel c s).next = c + (subnStoryFuel fuel c s).ids.length := by
  intro fuel
  induction fuel with
  | zero => intro c s; simp [subnStoryFuel]
  | succ f ih =>
    intro c s
    cases s with
    | nil => simp [subnStoryFuel]
    | cons x rest =>
      cases hm : storyMatchHere (x :: rest) with
      | some p =>
        obtain ⟨g, after⟩ := p
        have h := ih (c + 1) after
        simp only [subnStoryFuel, hm]
        refine ⟨?_, ?_⟩
        · simp only [List.length_cons]
          rw [show List.range' c ((subnStoryFuel f (c + 1) after).ids.length + 1) =
            c :: List.range' (c + 1) (subnStoryFuel f (c + 1) after).ids.length from rfl]
          exact congrArg (c :: ·) h.1
        · simp only [List.length_cons]
          omega
      | none =>
        simp only [subnStoryFuel, hm]
        exact ih c rest

theorem subnStory_ids (c : Nat) (s : List Char) :
    (subnStory c s).ids = List.range' c (subnStory c s).ids.length ∧
      (subnStory c s).next = c + (subnStory c s).ids.length :=
  subnStoryFuel_ids _ _ _

theorem headNotVal_iff_head? {l : List Char} :
    headNotVal l = true ↔ ∀ c, l.head? = some c → isStoryValChar c = false := by
  cases l with
  | nil => simp [headNotVal]
  | cons a l => simp [headNotVal]

theorem takeWhile_ne_nil_iff_head {p : Char → Bool} {l : List Char} :
    l.takeWhile p ≠ [] ↔ ∃ c, l.head? = some c ∧ p c = true := by
  cases l with
  | nil => simp
  | cons a l =>
    by_cases hp : p a
    · simp [List.takeWhile, hp]
    · simp [List.takeWhile, hp]

/-- Two texts that coincide except at story-identifier values: the second is
the first with, inside each rewritten story field, the maximal value after
`MS-` replaced by the decimal digits of some number, and the label and the
whitespace of the field kept verbatim. -/
inductive FieldRw : List Char → List Char → Prop
  | nil : FieldRw [] []
  | cons (c : Char) {t u : List Char} : FieldRw t u → FieldRw (c :: t) (c :: u)
  | seg (sp v : List Char) (n : Nat) {t u : List Char} :
      (∀ c ∈ sp, isSpaceChar c = true) → v ≠ [] →
      (∀ c ∈ v, isStoryValChar c = true) →
      headNotVal t = true → headNotVal u = true → FieldRw t u →
      FieldRw (storyLabel ++ sp ++ msLit ++ v ++ t)
        (storyLabel ++ sp ++ msLit ++ natDigits n ++ u)

/-- Weakening of `FieldRw` that forgets where the replaced runs sit: the
second text is the first with some nonempty maximal value runs replaced by
nonempty digit runs. -/
inductive RwV : List Char → List Char → Prop
  | nil : RwV [] []
  | cons (c : Char) {t u : List Char} : RwV t u → RwV (c :: t) (c :: u)
  | seg (v w : List Char) {t u : List Char} :
      v ≠ [] → (∀ c ∈ v, isStoryValChar c = true) →
      w ≠ [] → (∀ c ∈ w, isAsciiDigit c = true) →
      headNotVal t = true → headNotVal u = true → RwV t u →
      RwV (v ++ t) (w ++ u)

theorem FieldRw.refl : ∀ s : List Char, FieldRw s s := by
  intro s
  induction s with
  | nil => exact FieldRw.nil
  | cons c t ih => exact FieldRw.cons c ih

theorem RwV.append_left {t u : List Char} (x : List Char) (h : RwV t u) :
    RwV (x ++ t) (x ++ u) := by
  induction x with
  | nil => simpa using h
  | cons c x ih => exact RwV.cons c ih

theorem FieldRw.toRwV {s s' : List Char} (h : FieldRw s s') : RwV s s' := by
  induction h with
  | nil => exact RwV.nil
  | cons c _ ih => exact RwV.cons c ih
  | seg sp v n hsp hv hval ht hu _ ih =>
    have hseg : RwV (v ++ _) (natDigits n ++ _) :=
      RwV.seg v (natDigits n) hv hval (natDigits_ne_nil n)
        (natDigits_all_digit n) ht hu ih
    simpa [List.append_assoc] using
      RwV.append_left (storyLabel ++ sp ++ msLit) hseg

/-- The rewriter changes a text only at story-identifier values: label and
whitespace are preserved verbatim and only the matched value is replaced by
freshly formatted digits. -/
theorem subnStoryFuel_fieldRw :
    ∀ fuel c (s : List Char), FieldRw s (subnStoryFuel fuel c s).text := by
  intro fuel
  induction fuel with
  | zero => intro c s; exact FieldRw.refl s
  | succ f ih =>
    intro c s
    cases s with
    | nil => exact FieldRw.nil
    | cons x rest =>
      cases hm : storyMatchHere (x :: rest) with
      | some p =>
        obtain ⟨g, after⟩ := p
        obtain ⟨sp, v, hshape, hg, hsp, hvne, hval, hhv⟩ := storyMatchHere_inv hm
        have hT : headNotVal (subnStoryFuel f (c + 1) after).text = true := by
          rw [headNotVal_iff_head?] at hhv ⊢
          intro d hd
          exact hhv d (by rw [← subnStoryFuel_head? f (c + 1) after]; exact hd)
        have hseg := FieldRw.seg sp v c hsp hvne hval hhv hT (ih (c + 1) after)
        simp only [subnStoryFuel, hm]
        rw [hshape, hg]
        simpa [List.append_assoc] using hseg
      | none =>
        simp only [subnStoryFuel, hm]
        exact FieldRw.cons x (ih c rest)

theorem subnStory_fieldRw (c : Nat) (s : List Char) :
    FieldRw s (subnStory c s).text := subnStoryFuel_fieldRw _ _ _

theorem rwV_dropLit {lit : List Char} (hlit : ∀ c ∈ lit, isAsciiDigit c = false) :
    ∀ {s s' r' : List Char}, RwV s s' → dropLit lit s' = some r' →
      ∃ r, dropLit lit s = some r ∧ RwV r r' := by
  induction lit with
  | nil =>
    intro s s' r' h hd
    have : r' = s' := by simpa [dropLit] using hd.symm
    subst this
    exact ⟨s, rfl, h⟩
  | cons c cs ih =>
    intro s s' r' h hd
    cases h with
    | nil => simp [dropLit] at hd
    | cons d hrec =>
      have hcd : c = d := by
        by_cases hcd : c = d
        · exact hcd
        · simp [dropLit, hcd] at hd
      subst hcd
      simp only [dropLit, if_pos rfl] at hd
      obtain ⟨r, hr, hrw⟩ := ih (fun a ha => hlit a (by simp [ha])) hrec hd
      exact ⟨r, by simp [dropLit, hr], hrw⟩
    | seg v w hv hval hw hwd hht hhu hrec =>
      cases w with
      | nil => exact absurd rfl hw
      | cons w0 w1 =>
        have hw0 : isAsciiDigit w0 = true := hwd w0 (by simp)
        have hc : isAsciiDigit c = false := hlit c (by simp)
        by_cases hcw : c = w0
        · subst hcw; rw [hc] at hw0; exact absurd hw0 (by simp)
        · simp [dropLit, hcw] at hd

theorem rwV_spaces {s s' : List Char} (h : RwV s s') :
    s'.takeWhile isSpaceChar = s.takeWhile isSpaceChar ∧
      RwV (s.dropWhile isSpaceChar) (s'.dropWhile isSpaceChar) := by
  induction h with
  | nil => exact ⟨rfl, RwV.nil⟩
  | cons c hrec ih =>
    by_cases hc : isSpaceChar c
    · simpa [List.takeWhile, List.dropWhile, hc] using ih
    · simp only [List.takeWhile_cons, List.dropWhile_cons, hc]
      exact ⟨by simp [hc], RwV.cons c hrec⟩
  | seg v w hv hval hw hwd hht hhu hrec =>
    cases v with
    | nil => exact absurd rfl hv
    | cons v0 v1 =>
      cases w with
      | nil => exact absurd rfl hw
      | cons w0 w1 =>
        have hv0 : isSpaceChar v0 = false := val_not_space (hval v0 (by simp))
        have hw0 : isSpaceChar w0 = false := digit_not_space (hwd w0 (by simp))
        simp only [List.cons_append, List.takeWhile_cons, List.dropWhile_cons, hv0, hw0]
        exact ⟨rfl, RwV.seg (v0 :: v1) (w0 :: w1) hv hval hw hwd hht hhu hrec⟩

theorem rwV_val_head {s s' : List Char} (h : RwV s s')
    (hh : ∃ c, s'.head? = some c ∧ isStoryValChar c = true) :
    ∃ c, s.head? = some c ∧ isStoryValChar c = true := by
  cases h with
  | nil => simp at hh
  | cons c hrec => obtain ⟨d, hd, hdv⟩ := hh; simp at hd; exact ⟨c, rfl, hd ▸ hdv⟩
  | seg v w hv hval hw hwd hht hhu hrec =>
    cases v with
    | nil => exact absurd rfl hv
    | cons v0 v1 => exact ⟨v0, by simp, hval v0 (by simp)⟩

/-- A position in the original at which the story pattern does not match
still does not match after the values elsewhere were rewritten. -/
theorem rwV_matchNone {s s' : List Char} (h : RwV s s')
    (hm : storyMatchHere s = none) : storyMatchHere s' = none := by
  cases hms : storyMatchHere s' with
  | none => rfl
  | some p =>
    obtain ⟨g, r'⟩ := p
    exfalso
    unfold storyMatchHere at hms
    cases h1' : dropLit storyLabel s' with
    | none => rw [h1'] at hms; simp at hms
    | some r1' =>
      rw [h1'] at hms
      dsimp only [] at hms
      obtain ⟨r1, hd1, hr1⟩ := rwV_dropLit storyLabel_no_digit h h1'
      have hsp := rwV_spaces hr1
      cases h3' : dropLit msLit (r1'.dropWhile isSpaceChar) with
      | none => rw [h3'] at hms; simp at hms
      | some r3' =>
        rw [h3'] at hms
        dsimp only [] at hms
        by_cases hv' : r3'.takeWhile isStoryValChar = []
        · simp [hv'] at hms
        · obtain ⟨r3, hd3, hr3⟩ := rwV_dropLit msLit_no_digit hsp.2 h3'
          have hval' := takeWhile_ne_nil_iff_head.mp hv'
          obtain ⟨c0, hc0, hc0v⟩ := rwV_val_head hr3 hval'
          have hne : r3.takeWhile isStoryValChar ≠ [] :=
            takeWhile_ne_nil_iff_head.mpr ⟨c0, hc0, hc0v⟩
          unfold storyMatchHere at hm
          rw [hd1] at hm
          dsimp only [] at hm
          rw [hd3] at hm
          dsimp only [] at hm
          simp [hne] at hm

/-- Re-running the substitution over an already rewritten text finds exactly
the same matches again, and produces the same text as a fresh run with the
second counter would. -/
theorem subnStory_rerun :
    ∀ n (s : List Char), s.length ≤ n → ∀ c1 c2,
      (subnStory c2 (subnStory c1 s).text).ids.length = (subnStory c1 s).ids.length ∧
      (subnStory c2 (subnStory c1 s).text).text = (subnStory c2 s).text := by
  intro n
  induction n with
  | zero =>
    intro s hs c1 c2
    have : s = [] := by cases s with | nil => rfl | cons a l => simp at hs
    subst this
    simp [subnStory_nil]
  | succ n ih =>
    intro s hs c1 c2
    cases s with
    | nil => simp [subnStory_nil]
    | cons x rest =>
      cases hm : storyMatchHere (x :: rest) with
      | some p =>
        obtain ⟨g, after⟩ := p
        obtain ⟨sp, v, hshape, hg, hsp, hvne, hval, hhv⟩ := storyMatchHere_inv hm
        have h1 := subnStory_cons_some c1 hm
        have hT : headNotVal (subnStory (c1 + 1) after).text = true :=
          subnStory_headNotVal _ hhv
        have hm2 : storyMatchHere (g ++ msLit ++ natDigits c1 ++
            (subnStory (c1 + 1) after).text) = some (g, (subnStory (c1 + 1) after).text) := by
          rw [hg]
          have hcon := storyMatchHere_construct hsp (natDigits_ne_nil c1)
            (fun c hc => digit_isVal (natDigits_all_digit c1 c hc)) hT
          simpa [List.append_assoc] using hcon
        have h2 := subnStory_cons_some c2 hm2
        have h3 := subnStory_cons_some c2 hm
        have hlen : after.length ≤ n := by
          have := storyMatchHere_some_length hm
          simp at this hs
          omega
        have IH := ih after hlen (c1 + 1) (c2 + 1)
        constructor
        · rw [h1]
          dsimp only []
          rw [h2]
          simpa using IH.1
        · rw [h1]
          dsimp only []
          rw [h2, h3]
          simp only []
          rw [IH.2]
      | none =>
        have h1 := subnStory_cons_none c1 hm
        have hrw : RwV rest (subnStory c1 rest).text :=
          (subnStory_fieldRw c1 rest).toRwV
        have hm2 : storyMatchHere (x :: (subnStory c1 rest).text) = none :=
          rwV_matchNone (RwV.cons x hrw) hm
        have h2 := subnStory_cons_none c2 hm2
        have h3 := subnStory_cons_none c2 hm
        have hlen : rest.length ≤ n := by simp at hs; omega
        have IH := ih rest hlen c1 c2
        constructor
        · rw [h1]
          dsimp only []
          rw [h2]
          simpa using IH.1
        · rw [h1]
          dsimp only []
          rw [h2, h3]
          simp only []
          rw [IH.2]

/-- Prefix test on character lists. -/
def strStartsWith : List Char → List Char → Bool
  | [], _ => true
  | _ :: _, [] => false
  | c :: cs, d :: ds => c = d && strStartsWith cs ds

/-- Suffix test on character lists. -/
def strEndsWith (pat s : List Char) : Bool := strStartsWith pat.reverse s.reverse

/-- The `EPIC_*.md` glob of line 22 of the script. -/
def globMatch (n : String) : Bool :=
  strStartsWith ("EPIC_").data n.data && strEndsWith (".md").data n.data

/-- A file of the `planning` directory: its name and its text content. -/
structure MDFile where
  name : String
  text : List Char
deriving DecidableEq

/-- Stable insertion into a sorted list, the building block for the model of
Python's stable sorting. -/
def insertLe {α : Type} (le : α → α → Bool) (a : α) : List α → List α
  | [] => [a]
  | b :: l => if le a b then a :: b :: l else b :: insertLe le a l

/-- Insertion sort: a stable sort, which is the specification of Python's
`sorted` and `list.sort`. -/
def sortLe {α : Type} (le : α → α → Bool) : List α → List α
  | [] => []
  | a :: l => insertLe le a (sortLe le l)

/-- Filename comparison: Python compares path strings by code point. -/
def nameLe (a b : MDFile) : Bool := decide (a.name.data ≤ b.name.data)

/-- Comparison by declared epic number, the key of the sort on line 30. -/
def epicLe (a b : Nat × MDFile) : Bool := decide (a.1 ≤ b.1)

/-- Lines 21-30 of the script: glob the directory, enumerate in sorted
filename order, extract each file's declared epic number (dropping files
without one), and stable-sort by epic number. -/
def loadEpics (files : List MDFile) : List (Nat × MDFile) :=
  sortLe epicLe
    ((sortLe nameLe (files.filter (fun f => globMatch f.name))).filterMap
      (fun f => (findEpicNum f.text).map (fun n => (n, f))))

theorem perm_insertLe {α : Type} (le : α → α → Bool) (a : α) :
    ∀ l : List α, (insertLe le a l).Perm (a :: l) := by
  intro l
  induction l with
  | nil => exact List.Perm.refl _
  | cons b l ih =>
    by_cases h : le a b
    · simp [insertLe, h]
    · simp only [insertLe, if_neg h]
      exact (ih.cons b).trans (List.Perm.swap a b l)

theorem perm_sortLe {α : Type} (le : α → α → Bool) :
    ∀ l : List α, (sortLe le l).Perm l := by
  intro l
  induction l with
  | nil => exact List.Perm.refl _
  | cons a l ih => exact (perm_insertLe le a (sortLe le l)).trans (ih.cons a)

theorem pairwise_insertLe {α : Type} {le : α → α → Bool}
    (htot : ∀ a b, le a b = true ∨ le b a = true)
    (htrans : ∀ a b c, le a b = true → le b c = true → le a c = true)
    (a : α) :
    ∀ {l : List α}, l.Pairwise (fun x y => le x y = true) →
      (insertLe le a l).Pairwise (fun x y => le x y = true) := by
  intro l
  induction l with
  | nil => intro _; simp [insertLe]
  | cons b l ih =>
    intro h
    rw [List.pairwise_cons] at h
    by_cases hab : le a b
    · simp only [insertLe, if_pos hab]
      rw [List.pairwise_cons]
      refine ⟨?_, List.pairwise_cons.mpr h⟩
      intro y hy
      rcases List.mem_cons.mp hy with hy | hy
      · subst hy; exact hab
      · exact htrans a b y hab (h.1 y hy)
    · have hba : le b a = true := (htot a b).resolve_left (by simpa using hab)
      simp only [insertLe, if_neg hab]
      rw [List.pairwise_cons]
      refine ⟨?_, ih h.2⟩
      intro y hy
      have hy' := (perm_insertLe le a l).mem_iff.mp hy
      rcases List.mem_cons.mp hy' with hy' | hy'
      · subst hy'; exact hba
      · exact h.1 y hy'

theorem pairwise_sortLe {α : Type} {le : α → α → Bool}
    (htot : ∀ a b, le a b = true ∨ le b a = true)
    (htrans : ∀ a b c, le a b = true → le b c = true → le a c = true) :
    ∀ l : List α, (sortLe le l).Pairwise (fun x y => le x y = true) := by
  intro l
  induction l with
  | nil => simp [sortLe]
  | cons a l ih => exact pairwise_insertLe htot htrans a ih

/-- Inserting by epic number into a list sorted by epic number with ties in
`P` order keeps that shape when the inserted element is `P`-below the rest. -/
theorem pairwise_insertLe_stable {P : Nat × MDFile → Nat × MDFile → Prop}
    (x : Nat × MDFile) :
    ∀ {S : List (Nat × MDFile)},
      S.Pairwise (fun a b => a.1 < b.1 ∨ (a.1 = b.1 ∧ P a b)) →
      (∀ b ∈ S, P x b) →
      (insertLe epicLe x S).Pairwise (fun a b => a.1 < b.1 ∨ (a.1 = b.1 ∧ P a b)) := by
  intro S
  induction S with
  | nil => intro _ _; simp [insertLe]
  | cons e S ih =>
    intro hS hP
    rw [List.pairwise_cons] at hS
    by_cases hxe : epicLe x e = true
    · have hxe' : x.1 ≤ e.1 := by simpa [epicLe] using hxe
      simp only [insertLe, if_pos hxe]
      rw [List.pairwise_cons]
      refine ⟨?_, List.pairwise_cons.mpr hS⟩
      intro y hy
      rcases List.mem_cons.mp hy with hy | hy
      · subst hy
        rcases Nat.lt_or_ge x.1 y.1 with hlt | hge
        · exact Or.inl hlt
        · exact Or.inr ⟨by omega, hP y (by simp)⟩
      · have hey : e.1 ≤ y.1 := by
          rcases hS.1 y hy with hc | hc
          · omega
          · omega
        rcases Nat.lt_or_ge x.1 y.1 with hlt | hge
        · exact Or.inl hlt
        · exact Or.inr ⟨by omega, hP y (List.mem_cons_of_mem e hy)⟩
    · have hex : e.1 < x.1 := by simp [epicLe] at hxe; omega
      simp only [insertLe, if_neg hxe]
      rw [List.pairwise_cons]
      refine ⟨?_, ih hS.2 (fun z hz => hP z (List.mem_cons_of_mem e hz))⟩
      intro y hy
      have hy' := (perm_insertLe epicLe x S).mem_iff.mp hy
      rcases List.mem_cons.mp hy' with hy' | hy'
      · subst hy'; exact Or.inl hex
      · exact hS.1 y hy'

/-- Stability of the epic-number sort: if the input is pairwise in `P`
order, ties in the output stay in `P` order. -/
theorem sortLe_stable {P : Nat × MDFile → Nat × MDFile → Prop} :
    ∀ l : List (Nat × MDFile), l.Pairwise P →
      (sortLe epicLe l).Pairwise (fun a b => a.1 < b.1 ∨ (a.1 = b.1 ∧ P a b)) := by
  intro l
  induction l with
  | nil => intro _; simp [sortLe]
  | cons x l ih =>
    intro hl
    rw [List.pairwise_cons] at hl
    exact pairwise_insertLe_stable x (ih hl.2)
      (fun b hb => hl.1 b ((perm_sortLe epicLe l).mem_iff.mp hb))

/-- `START_STORY_ID` of the script: epics occupy `MS-1`..`MS-9`, stories
start at `MS-10`. -/
def START_STORY_ID : Nat := 10

/-- The outcome of processing one document: its name, original text,
rewritten text, and the identifiers assigned in it (one per replacement, so
the replacement count of `subn` is `ids.length`). -/
structure DocResult where
  name : String
  origText : List Char
  newText : List Char
  ids : List Nat
deriving DecidableEq

/-- The persistence condition of line 48: written back iff at least one
replacement happened and the rewritten text differs from the original. -/
def written (r : DocResult) : Bool :=
  decide (0 < r.ids.length) && decide (r.newText ≠ r.origText)

/-- The per-file progress line printed for each processed document. -/
def reportLine (r : DocResult) : String :=
  if written r then r.name ++ (": updated ") ++ toString r.ids.length ++ (" Story ID(s)")
  else r.name ++ (": no Story ID lines updated")

/-- `total_updates`: one increment per replacement across the whole run. -/
def totalUpdates (rs : List DocResult) : Nat :=
  (rs.map (fun r => r.ids.length)).sum

/-- The final summary line of lines 54-59. -/
def summaryLine (finalCounter total : Nat) : String :=
  if total = 0 then ("No Story ID updates performed.")
  else ("Done. Assigned through MS-") ++ toString (finalCounter - 1) ++
    (". Total updates: ") ++ toString total

/-- Lines 38-52: walk the ordered documents, rewriting each and threading
the counter; the epic number no longer matters at this stage. -/
def processDocs : Nat → List (Nat × MDFile) → List DocResult × Nat
  | c, [] => ([], c)
  | c, (_, f) :: rest =>
    (⟨f.name, f.text, (subnStory c f.text).text, (subnStory c f.text).ids⟩ ::
        (processDocs (subnStory c f.text).next rest).1,
      (processDocs (subnStory c f.text).next rest).2)

/-- Everything observable about a run of `main`: the exit code, the files
written back (name and new content, in processing order), the per-file
report lines, and the final summary line. -/
structure RunResult where
  exitCode : Nat
  results : List DocResult
  writes : List (String × List Char)
  reports : List String
  summary : Option String
deriving DecidableEq

/-- The whole `main`: `none` models a missing `planning` directory (lines
13-18: error to stderr, exit status 1, nothing touched); otherwise load,
rewrite, persist and report, returning exit status 0 (line 60). -/
def runMain : Option (List MDFile) → RunResult
  | none => ⟨1, [], [], [], none⟩
  | some files =>
    ⟨0,
      (processDocs START_STORY_ID (loadEpics files)).1,
      (((processDocs START_STORY_ID (loadEpics files)).1.filter written).map
        (fun r => (r.name, r.newText))),
      ((processDocs START_STORY_ID (loadEpics files)).1.map reportLine),
      some (summaryLine (processDocs START_STORY_ID (loadEpics files)).2
        (totalUpdates (processDocs START_STORY_ID (loadEpics files)).1))⟩

theorem range'_add (s m n : Nat) :
    List.range' s m ++ List.range' (s + m) n = List.range' s (m + n) := by
  induction m generalizing s with
  | zero => simp
  | succ m ih =>
    rw [show m + 1 + n = m + n + 1 by omega]
    have h1 : List.range' s (m + 1) = s :: List.range' (s + 1) m := rfl
    have h2 : List.range' s (m + n + 1) = s :: List.range' (s + 1) (m + n) := rfl
    rw [h1, h2, List.cons_append]
    rw [show s + (m + 1) = s + 1 + m by omega]
    rw [ih (s + 1)]

theorem range'_getLast (s n : Nat) (h : 0 < n) :
    (List.range' s n).getLast? = some (s + n - 1) := by
  induction n generalizing s with
  | zero => omega
  | succ n ih =>
    cases n with
    | zero => simp [List.range']
    | succ m =>
      have h1 : List.range' s (m + 1 + 1) = s :: List.range' (s + 1) (m + 1) := rfl
      rw [h1]
      have h2 : List.range' (s + 1) (m + 1) = (s + 1) :: List.range' (s + 2) m := rfl
      rw [h2, List.getLast?_cons_cons, ← h2, ih (s + 1) (by omega)]
      congr 1
      omega

/-- The identifiers assigned across a whole run are consecutive from the
starting counter, and the counter ends advanced by the total number of
replacements, never being reset between documents. -/
theorem processDocs_ids :
    ∀ (docs : List (Nat × MDFile)) (c : Nat),
      ((processDocs c docs).1.map (fun r => r.ids)).flatten =
        List.range' c (totalUpdates (processDocs c docs).1) ∧
      (processDocs c docs).2 = c + totalUpdates (processDocs c docs).1 := by
  intro docs
  induction docs with
  | nil => intro c; simp [processDocs, totalUpdates]
  | cons e docs ih =>
    intro c
    obtain ⟨k, f⟩ := e
    have hsub := subnStory_ids c f.text
    have IH := ih (subnStory c f.text).next
    simp only [processDocs, List.map_cons, List.flatten_cons]
    constructor
    · rw [IH.1, hsub.2]
      conv_lhs => rw [hsub.1]
      simp only [totalUpdates, List.map_cons, List.sum_cons, List.length_range']
      exact range'_add c (subnStory c f.text).ids.length _
    · rw [IH.2, hsub.2]
      simp only [totalUpdates, List.map_cons, List.sum_cons]
      omega

/-- The processed results are in bijection with the loaded documents: same
order, same names, same original texts. -/
theorem processDocs_names :
    ∀ (docs : List (Nat × MDFile)) (c : Nat),
      (processDocs c docs).1.map (fun r => (r.name, r.origText)) =
        docs.map (fun e => (e.2.name, e.2.text)) := by
  intro docs
  induction docs with
  | nil => intro c; simp [processDocs]
  | cons e docs ih =>
    intro c
    obtain ⟨k, f⟩ := e
    simp only [processDocs, List.map_cons]
    rw [ih]

/-- Feeding the rewritten documents back through the rewriter matches the
same number of fields in every document, advances the counter identically,
and leaves every text unchanged. -/
theorem processDocs_rerun :
    ∀ (docs : List (Nat × MDFile)) (c : Nat),
      ((processDocs c ((processDocs c docs).1.map
          (fun r => (0, MDFile.mk r.name r.newText)))).1.map (fun r => r.ids.length) =
        (processDocs c docs).1.map (fun r => r.ids.length)) ∧
      (∀ r ∈ (processDocs c ((processDocs c docs).1.map
          (fun r => (0, MDFile.mk r.name r.newText)))).1, r.newText = r.origText) ∧
      (processDocs c ((processDocs c docs).1.map
          (fun r => (0, MDFile.mk r.name r.newText)))).2 = (processDocs c docs).2 := by
  intro docs
  induction docs with
  | nil => intro c; simp [processDocs]
  | cons e docs ih =>
    intro c
    obtain ⟨k, f⟩ := e
    have hrerun := subnStory_rerun f.text.length f.text (le_refl _) c c
    have hnext := (subnStory_ids c f.text).2
    have hnext2 := (subnStory_ids c (subnStory c f.text).text).2
    have hnexteq : (subnStory c (subnStory c f.text).text).next = (subnStory c f.text).next := by
      rw [hnext, hnext2, hrerun.1]
    have htext : (subnStory c (subnStory c f.text).text).text = (subnStory c f.text).text :=
      hrerun.2
    have IH := ih (subnStory c f.text).next
    simp only [processDocs, List.map_cons]
    refine ⟨?_, ?_, ?_⟩
    · simp only [List.map_cons, List.cons.injEq]
      exact ⟨hrerun.1, by rw [hnexteq]; exact IH.1⟩
    · intro r hr
      rcases List.mem_cons.mp hr with h | h
      · subst h
        simpa using htext
      · rw [hnexteq] at h
        exact IH.2.1 r h
    · rw [hnexteq]
      exact IH.2.2

theorem mem_loadEpics {files : List MDFile} {e : Nat × MDFile}
    (h : e ∈ loadEpics files) :
    e.2 ∈ files ∧ globMatch e.2.name = true ∧ findEpicNum e.2.text = some e.1 := by
  unfold loadEpics at h
  have h1 := (perm_sortLe epicLe _).mem_iff.mp h
  rw [List.mem_filterMap] at h1
  obtain ⟨f, hf, hfe⟩ := h1
  rw [Option.map_eq_some'] at hfe
  obtain ⟨n, hn, hne⟩ := hfe
  have hf2 := (perm_sortLe nameLe _).mem_iff.mp hf
  rw [List.mem_filter] at hf2
  subst hne
  exact ⟨hf2.1, hf2.2, hn⟩

theorem pairwise_filterMap_of {β γ : Type} (g : β → Option γ) {R : γ → γ → Prop} :
    ∀ {l : List β},
      l.Pairwise (fun a b => ∀ x, g a = some x → ∀ y, g b = some y → R x y) →
      (l.filterMap g).Pairwise R := by
  intro l
  induction l with
  | nil => intro _; simp
  | cons a l ih =>
    intro h
    rw [List.pairwise_cons] at h
    cases hg : g a with
    | none =>
      rw [List.filterMap_cons, hg]
      exact ih h.2
    | some x =>
      rw [List.filterMap_cons, hg]
      rw [List.pairwise_cons]
      refine ⟨?_, ih h.2⟩
      intro y hy
      rw [List.mem_filterMap] at hy
      obtain ⟨b, hb, hby⟩ := hy
      exact h.1 b hb x hg y hby

/-- Distinct filenames survive the whole loading pipeline. -/
theorem loadEpics_pairwise_names {files : List MDFile}
    (h : files.Pairwise (fun a b => a.name ≠ b.name)) :
    (loadEpics files).Pairwise (fun a b => a.2.name ≠ b.2.name) := by
  have hsym1 : ∀ {x y : MDFile}, x.name ≠ y.name → y.name ≠ x.name := fun h' => h'.symm
  have hsym2 : ∀ {x y : Nat × MDFile}, x.2.name ≠ y.2.name → y.2.name ≠ x.2.name :=
    fun h' => h'.symm
  have h1 : (files.filter (fun f => globMatch f.name)).Pairwise
      (fun a b => a.name ≠ b.name) := h.filter _
  have h2 : (sortLe nameLe (files.filter (fun f => globMatch f.name))).Pairwise
      (fun a b => a.name ≠ b.name) :=
    ((perm_sortLe nameLe _).pairwise_iff hsym1).mpr h1
  have h3 : ((sortLe nameLe (files.filter (fun f => globMatch f.name))).filterMap
      (fun f => (findEpicNum f.text).map (fun n => (n, f)))).Pairwise
      (fun a b => a.2.name ≠ b.2.name) := by
    apply pairwise_filterMap_of
    apply h2.imp
    intro a b hab x hx y hy
    rw [Option.map_eq_some'] at hx hy
    obtain ⟨n, -, hn⟩ := hx
    obtain ⟨m, -, hm⟩ := hy
    subst hn
    subst hm
    exact hab
  exact ((perm_sortLe epicLe _).pairwise_iff hsym2).mpr h3

theorem eq_of_name_eq {l : List DocResult}
    (hl : l.Pairwise (fun a b => a.name ≠ b.name)) {r r' : DocResult}
    (hr : r ∈ l) (hr' : r' ∈ l) (hname : r.name = r'.name) : r = r' := by
  induction l with
  | nil => simp at hr
  | cons a l ih =>
    rw [List.pairwise_cons] at hl
    rcases List.mem_cons.mp hr with h1 | h1
    · rcases List.mem_cons.mp hr' with h2 | h2
      · rw [h1, h2]
      · subst h1; exact absurd hname (hl.1 r' h2)
    · rcases List.mem_cons.mp hr' with h2 | h2
      · subst h2; exact absurd hname.symm (hl.1 r h1)
      · exact ih hl.2 h1 h2

theorem processDocs_result_origin {docs : List (Nat × MDFile)} {c : Nat} {r : DocResult}
    (hr : r ∈ (processDocs c docs).1) :
    ∃ e ∈ docs, e.2.name = r.name ∧ e.2.text = r.origText := by
  have hmap := processDocs_names docs c
  have hmem : (r.name, r.origText) ∈
      (processDocs c docs).1.map (fun r => (r.name, r.origText)) :=
    List.mem_map_of_mem _ hr
  rw [hmap, List.mem_map] at hmem
  obtain ⟨e, he, hee⟩ := hmem
  rw [Prod.mk.injEq] at hee
  exact ⟨e, he, hee.1, hee.2⟩

theorem processDocs_pairwise_names :
    ∀ (docs : List (Nat × MDFile)) (c : Nat),
      docs.Pairwise (fun a b => a.2.name ≠ b.2.name) →
      (processDocs c docs).1.Pairwise (fun a b => a.name ≠ b.name) := by
  intro docs
  induction docs with
  | nil => intro c _; simp [processDocs]
  | cons e docs ih =>
    intro c h
    rw [List.pairwise_cons] at h
    obtain ⟨k, f⟩ := e
    simp only [processDocs]
    rw [List.pairwise_cons]
    refine ⟨?_, ih _ h.2⟩
    intro r' hr'
    obtain ⟨e', he', hn, -⟩ := processDocs_result_origin hr'
    show f.name ≠ r'.name
    rw [← hn]
    exact h.1 e' he'

/-- Membership in the write-back list, for a run with distinct filenames:
exactly the processed documents satisfying the persistence condition. -/
theorem mem_writes_iff {rs : List DocResult}
    (hrs : rs.Pairwise (fun a b => a.name ≠ b.name)) {r : DocResult} (hr : r ∈ rs) :
    ((r.name, r.newText) ∈ (rs.filter written).map (fun r => (r.name, r.newText)) ↔
      written r = true) := by
  constructor
  · intro h
    rw [List.mem_map] at h
    obtain ⟨r', hr', heq⟩ := h
    rw [Prod.mk.injEq] at heq
    have hr'' : r' ∈ rs := List.mem_of_mem_filter hr'
    have : r = r' := eq_of_name_eq hrs hr hr'' heq.1.symm
    subst this
    exact (List.mem_filter.mp hr').2
  · intro h
    exact List.mem_map_of_mem _ (List.mem_filter.mpr ⟨hr, h⟩)

theorem eq_of_pairwise_key {α : Type} (key : α → String) {l : List α}
    (hl : l.Pairwise (fun a b => key a ≠ key b)) {x y : α}
    (hx : x ∈ l) (hy : y ∈ l) (hk : key x = key y) : x = y := by
  induction l with
  | nil => simp at hx
  | cons a l ih =>
    rw [List.pairwise_cons] at hl
    rcases List.mem_cons.mp hx with h1 | h1
    · rcases List.mem_cons.mp hy with h2 | h2
      · rw [h1, h2]
      · subst h1; exact absurd hk (hl.1 y h2)
    · rcases List.mem_cons.mp hy with h2 | h2
      · subst h2; exact absurd hk.symm (hl.1 x h1)
      · exact ih hl.2 h1 h2

theorem nameLe_total : ∀ a b : MDFile, nameLe a b = true ∨ nameLe b a = true := by
  intro a b
  simp only [nameLe, decide_eq_true_eq]
  exact le_total a.name.data b.name.data

theorem nameLe_trans :
    ∀ a b c : MDFile, nameLe a b = true → nameLe b c = true → nameLe a c = true := by
  intro a b c
  simp only [nameLe, decide_eq_true_eq]
  exact le_trans

theorem epicLe_total : ∀ a b : Nat × MDFile, epicLe a b = true ∨ epicLe b a = true := by
  intro a b
  simp only [epicLe, decide_eq_true_eq]
  omega

theorem epicLe_trans :
    ∀ a b c : Nat × MDFile, epicLe a b = true → epicLe b c = true → epicLe a c = true := by
  intro a b c
  simp only [epicLe, decide_eq_true_eq]
  omega

/-- With distinct filenames, the loaded list is ordered by epic number with
ties in strict filename order: discovery sorts by filename and the epic sort
is stable. -/
theorem loadEpics_pairwise_lex {files : List MDFile}
    (h : files.Pairwise (fun a b => a.name ≠ b.name)) :
    (loadEpics files).Pairwise
      (fun a b => a.1 < b.1 ∨ (a.1 = b.1 ∧ a.2.name.data < b.2.name.data)) := by
  have hsym1 : ∀ {x y : MDFile}, x.name ≠ y.name → y.name ≠ x.name := fun h' => h'.symm
  have h1 : (files.filter (fun f => globMatch f.name)).Pairwise
      (fun a b => a.name ≠ b.name) := h.filter _
  have hsorted := pairwise_sortLe nameLe_total nameLe_trans
    (files.filter (fun f => globMatch f.name))
  have hne : (sortLe nameLe (files.filter (fun f => globMatch f.name))).Pairwise
      (fun a b => a.name ≠ b.name) :=
    ((perm_sortLe nameLe _).pairwise_iff hsym1).mpr h1
  have hstrict : (sortLe nameLe (files.filter (fun f => globMatch f.name))).Pairwise
      (fun a b => a.name.data < b.name.data) := by
    refine (hsorted.and hne).imp ?_
    intro a b hab
    refine lt_of_le_of_ne (by simpa [nameLe] using hab.1) ?_
    intro hd
    exact hab.2 (String.ext hd)
  have h3 : ((sortLe nameLe (files.filter (fun f => globMatch f.name))).filterMap
      (fun f => (findEpicNum f.text).map (fun n => (n, f)))).Pairwise
      (fun x y => x.2.name.data < y.2.name.data) := by
    apply pairwise_filterMap_of
    refine hstrict.imp ?_
    intro a b hab x hx y hy
    rw [Option.map_eq_some'] at hx hy
    obtain ⟨n, -, hn⟩ := hx
    obtain ⟨m, -, hm⟩ := hy
    subst hn
    subst hm
    exact hab
  exact sortLe_stable _ h3

/-- Concrete planning document `EPIC_A.md` of the spec's scenario: declares
epic `MS-1` and has one story line. -/
def fileA : MDFile := ⟨("EPIC_A.md"), ("**Epic ID**: MS-1\n**Story ID**: MS-a\n").data⟩

/-- Concrete planning document `EPIC_B.md` of the spec's scenario: declares
epic `MS-2` and has two story lines. -/
def fileB : MDFile :=
  ⟨("EPIC_B.md"), ("**Epic ID**: MS-2\n**Story ID**: MS-b\n**Story ID**: MS-c\n").data⟩

/-- The scenario's directory listing, deliberately in reverse name order. -/
def demoFiles : List MDFile := [fileB, fileA]

/-- A directory with one document whose story identifier already carries the
value about to be assigned. -/
def demoSame : List MDFile :=
  [⟨("EPIC_A.md"), ("**Epic ID**: MS-1\n**Story ID**: MS-10\n").data⟩]

/-- Two documents declaring the same epic number, in reverse name order. -/
def demoTie : List MDFile :=
  [⟨("EPIC_B.md"), ("**Epic ID**: MS-1\n**Story ID**: MS-x\n").data⟩,
   ⟨("EPIC_A.md"), ("**Epic ID**: MS-1\n**Story ID**: MS-y\n").data⟩]

/-- The scenario's listing extended with a document lacking an epic line. -/
def demoSkip : List MDFile :=
  [fileB, ⟨("EPIC_X.md"), ("no epic line here\n**Story ID**: MS-q\n").data⟩, fileA]

/-- Claim C1: across any run, the identifiers assigned over all processed
documents, taken in epic order and then in textual order, form exactly the
sequence 10, 11, 12, ... (strictly increasing by one from 10); the counter is
threaded across documents and never reset, ending at 10 plus the total
number of replacements, and when at least one replacement occurred the last
assigned identifier is 10 plus the total minus one. -/
theorem claim1_global_monotonicity (files : List MDFile) :
    (((runMain (some files)).results.map (fun r => r.ids)).flatten =
      List.range' START_STORY_ID (totalUpdates (runMain (some files)).results)) ∧
    ((processDocs START_STORY_ID (loadEpics files)).2 =
      START_STORY_ID + totalUpdates (runMain (some files)).results) ∧
    (0 < totalUpdates (runMain (some files)).results →
      (((runMain (some files)).results.map (fun r => r.ids)).flatten).getLast? =
        some (START_STORY_ID + totalUpdates (runMain (some files)).results - 1)) := by
  have h := processDocs_ids (loadEpics files) START_STORY_ID
  refine ⟨h.1, h.2, fun hpos => ?_⟩
  show (((processDocs START_STORY_ID (loadEpics files)).1.map
    (fun r => r.ids)).flatten).getLast? = _
  rw [h.1]
  exact range'_getLast _ _ hpos

/-- Witness for C1 at the concrete scenario: three replacements happen and
the last assigned identifier is 12. -/
theorem claim1_witness :
    (((runMain (some demoFiles)).results.map (fun r => r.ids)).flatten).getLast? =
      some (START_STORY_ID + totalUpdates (runMain (some demoFiles)).results - 1) :=
  (claim1_global_monotonicity demoFiles).2.2 (by decide)

/-- Claim C2: on the two-document scenario (`EPIC_B.md` declaring `MS-2`
with two story lines and `EPIC_A.md` declaring `MS-1` with one), the run
rewrites `EPIC_A.md`'s story line to `MS-10` and `EPIC_B.md`'s two lines to
`MS-11` and `MS-12` in top-to-bottom order, and the summary line reports
assignment through `MS-12` with 3 total updates. -/
theorem claim2_concrete_scenario :
    ((runMain (some demoFiles)).writes =
      [(("EPIC_A.md" : String), ("**Epic ID**: MS-1\n**Story ID**: MS-10\n").data),
       (("EPIC_B.md" : String),
         ("**Epic ID**: MS-2\n**Story ID**: MS-11\n**Story ID**: MS-12\n").data)]) ∧
    (runMain (some demoFiles)).summary =
      some ("Done. Assigned through MS-12. Total updates: 3") := by
  constructor
  · decide
  · decide

/-- Claim C3: the loader returns documents sorted by ascending declared epic
number (the number parsed from the first epic-label occurrence), the
processed documents are exactly the loaded ones in that order, and a
document without the epic pattern is omitted: it appears nowhere in the
loaded sequence and no write ever targets its name. -/
theorem claim3_loader (files : List MDFile)
    (h : files.Pairwise (fun a b => a.name ≠ b.name)) :
    ((loadEpics files).Pairwise (fun a b => a.1 ≤ b.1)) ∧
    (∀ e ∈ loadEpics files, findEpicNum e.2.text = some e.1) ∧
    ((runMain (some files)).results.map (fun r => (r.name, r.origText)) =
      (loadEpics files).map (fun e => (e.2.name, e.2.text))) ∧
    (∀ f ∈ files, findEpicNum f.text = none →
      (∀ e ∈ loadEpics files, e.2.name ≠ f.name) ∧
      (∀ w ∈ (runMain (some files)).writes, w.1 ≠ f.name)) := by
  refine ⟨?_, ?_, ?_, ?_⟩
  · have hs := pairwise_sortLe epicLe_total epicLe_trans
      ((sortLe nameLe (files.filter (fun f => globMatch f.name))).filterMap
        (fun f => (findEpicNum f.text).map (fun n => (n, f))))
    refine hs.imp ?_
    intro a b hab
    simpa [epicLe] using hab
  · intro e he
    exact (mem_loadEpics he).2.2
  · exact processDocs_names (loadEpics files) START_STORY_ID
  · intro f hf hnone
    have hpart : ∀ e ∈ loadEpics files, e.2.name ≠ f.name := by
      intro e he hcontra
      have hm := mem_loadEpics he
      have heq : e.2 = f := eq_of_pairwise_key MDFile.name h hm.1 hf hcontra
      rw [heq, hnone] at hm
      exact absurd hm.2.2 (by simp)
    refine ⟨hpart, ?_⟩
    intro w hw
    have hw' : w ∈ ((processDocs START_STORY_ID (loadEpics files)).1.filter written).map
        (fun r => (r.name, r.newText)) := hw
    rw [List.mem_map] at hw'
    obtain ⟨r, hrf, hrw⟩ := hw'
    have hr : r ∈ (processDocs START_STORY_ID (loadEpics files)).1 :=
      List.mem_of_mem_filter hrf
    obtain ⟨e, he, hen, -⟩ := processDocs_result_origin hr
    intro hcontra
    apply hpart e he
    rw [hen]
    rw [← hrw] at hcontra
    exact hcontra

/-- Witness for C3: on the scenario listing extended with an epicless
document, the processed documents coincide with the loaded sequence. -/
theorem claim3_witness :
    (runMain (some demoSkip)).results.map (fun r => (r.name, r.origText)) =
      (loadEpics demoSkip).map (fun e => (e.2.name, e.2.text)) :=
  (claim3_loader demoSkip (by decide)).2.2.1

/-- Claim C4: a processed document is written back exactly when its
replacement count is positive and its rewritten text differs from the
original; with zero replacements, or identical output, no write targets it. -/
theorem claim4_persistence (files : List MDFile)
    (h : files.Pairwise (fun a b => a.name ≠ b.name)) :
    ∀ r ∈ (runMain (some files)).results,
      ((r.name, r.newText) ∈ (runMain (some files)).writes ↔
        0 < r.ids.length ∧ r.newText ≠ r.origText) := by
  intro r hr
  have hpn := processDocs_pairwise_names (loadEpics files) START_STORY_ID
    (loadEpics_pairwise_names h)
  have hr' : r ∈ (processDocs START_STORY_ID (loadEpics files)).1 := hr
  have hiff := mem_writes_iff hpn hr'
  have h2 : written r = true ↔ 0 < r.ids.length ∧ r.newText ≠ r.origText := by
    simp [written]
  exact Iff.trans hiff h2

/-- Witness for C4: in the concrete scenario, `EPIC_A.md` has one
replacement and changed text, hence appears in the writes. -/
theorem claim4_witness :
    ((("EPIC_A.md" : String), ("**Epic ID**: MS-1\n**Story ID**: MS-10\n").data) ∈
      (runMain (some demoFiles)).writes) :=
  (claim4_persistence demoFiles (by decide)
      ⟨("EPIC_A.md"), ("**Epic ID**: MS-1\n**Story ID**: MS-a\n").data,
        ("**Epic ID**: MS-1\n**Story ID**: MS-10\n").data, [10]⟩
      (by decide)).mpr (by decide)

/-- Claim C5: the Rewriter's matching anchors only on the story label: a
field with any existing nonempty value made of letters, digits or hyphens is
matched and its value replaced by the current counter, whatever the value
was; the label and whitespace are kept and the scan continues after it. -/
theorem claim5_value_independent (c : Nat) (sp v t : List Char)
    (hsp : ∀ x ∈ sp, isSpaceChar x = true) (hv : v ≠ [])
    (hval : ∀ x ∈ v, isStoryValChar x = true) (ht : headNotVal t = true) :
    subnStory c (storyLabel ++ sp ++ msLit ++ v ++ t) =
      ⟨storyLabel ++ sp ++ msLit ++ natDigits c ++ (subnStory (c + 1) t).text,
        c :: (subnStory (c + 1) t).ids, (subnStory (c + 1) t).next⟩ := by
  have hm := storyMatchHere_construct hsp hv hval ht
  have hs := subnStory_cons_some c hm
  simpa [List.append_assoc] using hs

/-- Witness for C5 at a concrete field whose value `MS-abc-99` is replaced
by `MS-10`. -/
theorem claim5_witness :
    subnStory 10 (storyLabel ++ (" ").data ++ msLit ++ ("abc-99").data ++ ("\n").data) =
      ⟨storyLabel ++ (" ").data ++ msLit ++ natDigits 10 ++
          (subnStory 11 (("\n").data)).text,
        10 :: (subnStory 11 (("\n").data)).ids, (subnStory 11 (("\n").data)).next⟩ :=
  claim5_value_independent 10 _ _ _ (by decide) (by decide) (by decide) (by decide)

/-- Claim C6: a missing `planning` directory yields exit status 1 and no
writes; in every other case, including a run with zero updates, the exit
status is 0. -/
theorem claim6_exit_status :
    (runMain none).exitCode = 1 ∧ (runMain none).writes = [] ∧
      ∀ files, (runMain (some files)).exitCode = 0 :=
  ⟨rfl, rfl, fun _ => rfl⟩

/-- Claim C7: for every rewritten text, only the matched story-identifier
values change: the text decomposes into verbatim-preserved stretches and
story fields whose label, whitespace and `MS-` are kept and whose maximal
value is replaced by decimal digits. -/
theorem claim7_frame (c : Nat) (s : List Char) : FieldRw s (subnStory c s).text :=
  subnStory_fieldRw c s

/-- Claim C8, amended: running the rewriter a second time over its own
output (same document set, same processing order) matches every
story-identifier line again (same per-document counts), reassigns fresh
sequential identifiers starting again at 10, and is idempotent on content:
the second pass reproduces each text byte-identically and persists nothing. -/
theorem claim8_rerun_idempotent (docs : List (Nat × MDFile)) :
    ((processDocs START_STORY_ID ((processDocs START_STORY_ID docs).1.map
        (fun r => (0, MDFile.mk r.name r.newText)))).1.map (fun r => r.ids.length) =
      (processDocs START_STORY_ID docs).1.map (fun r => r.ids.length)) ∧
    (((processDocs START_STORY_ID ((processDocs START_STORY_ID docs).1.map
        (fun r => (0, MDFile.mk r.name r.newText)))).1.map (fun r => r.ids)).flatten =
      List.range' START_STORY_ID (totalUpdates (processDocs START_STORY_ID docs).1)) ∧
    ((processDocs START_STORY_ID ((processDocs START_STORY_ID docs).1.map
        (fun r => (0, MDFile.mk r.name r.newText)))).1.map (fun r => r.newText) =
      (processDocs START_STORY_ID ((processDocs START_STORY_ID docs).1.map
        (fun r => (0, MDFile.mk r.name r.newText)))).1.map (fun r => r.origText)) ∧
    ((processDocs START_STORY_ID ((processDocs START_STORY_ID docs).1.map
        (fun r => (0, MDFile.mk r.name r.newText)))).1.filter written = []) := by
  have hre := processDocs_rerun docs START_STORY_ID
  refine ⟨hre.1, ?_, ?_, ?_⟩
  · have hids := (processDocs_ids ((processDocs START_STORY_ID docs).1.map
      (fun r => (0, MDFile.mk r.name r.newText))) START_STORY_ID).1
    rw [hids]
    unfold totalUpdates
    rw [hre.1]
  · exact List.map_congr_left hre.2.1
  · rw [List.filter_eq_nil_iff]
    intro r hrr
    have heq := hre.2.1 r hrr
    simp [written, heq]

/-- Counterexample to C8 as stated: on the concrete scenario, a second full
run over the first run's output changes no text and writes no file, so the
process is idempotent on content, contradicting the claimed
non-idempotence. -/
theorem claim8_counterexample :
    ((runMain (some ((runMain (some demoFiles)).results.map
        (fun r => MDFile.mk r.name r.newText)))).results.map (fun r => r.newText) =
      (runMain (some ((runMain (some demoFiles)).results.map
        (fun r => MDFile.mk r.name r.newText)))).results.map (fun r => r.origText)) ∧
    (runMain (some ((runMain (some demoFiles)).results.map
        (fun r => MDFile.mk r.name r.newText)))).writes = [] := by
  constructor
  · decide
  · decide

/-- Claim C9: when documents declare equal epic numbers their processing
order is the lexicographic filename order: discovery is in sorted-filename
order and the epic sort is stable, so the loaded list is ordered by epic
number with ties strictly by filename. -/
theorem claim9_stable_ties (files : List MDFile)
    (h : files.Pairwise (fun a b => a.name ≠ b.name)) :
    (loadEpics files).Pairwise
      (fun a b => a.1 < b.1 ∨ (a.1 = b.1 ∧ a.2.name.data < b.2.name.data)) :=
  loadEpics_pairwise_lex h

/-- Witness for C9: two documents both declaring epic 1, listed in reverse
name order, are loaded in filename order. -/
theorem claim9_witness :
    (loadEpics demoTie).Pairwise
      (fun a b => a.1 < b.1 ∨ (a.1 = b.1 ∧ a.2.name.data < b.2.name.data)) :=
  claim9_stable_ties demoTie (by decide)

/-- Claim C10: the counter and the total are advanced once per match even
for documents that are not persisted: a document whose rewritten text equals
its original is not written and reports no updated lines, yet the summary
still counts its matches and the counter moves past them. -/
theorem claim10_counts_unpersisted (files : List MDFile) :
    ((runMain (some files)).summary =
      some (summaryLine (START_STORY_ID + totalUpdates (runMain (some files)).results)
        (totalUpdates (runMain (some files)).results))) ∧
    (∀ r ∈ (runMain (some files)).results, r.newText = r.origText →
      written r = false ∧ reportLine r = r.name ++ (": no Story ID lines updated")) := by
  constructor
  · show some (summaryLine (processDocs START_STORY_ID (loadEpics files)).2
      (totalUpdates (processDocs START_STORY_ID (loadEpics files)).1)) = _
    rw [(processDocs_ids (loadEpics files) START_STORY_ID).2]
    rfl
  · intro r hr heq
    have hw : written r = false := by simp [written, heq]
    refine ⟨hw, ?_⟩
    simp [reportLine, hw]

/-- Witness for C10: a document already carrying `MS-10` is matched (one
update counted, summary reaches `MS-10`), yet not written and reported as
having no updated lines. -/
theorem claim10_witness :
    written (⟨("EPIC_A.md"), ("**Epic ID**: MS-1\n**Story ID**: MS-10\n").data,
        ("**Epic ID**: MS-1\n**Story ID**: MS-10\n").data, [10]⟩ : DocResult) = false ∧
      reportLine (⟨("EPIC_A.md"), ("**Epic ID**: MS-1\n**Story ID**: MS-10\n").data,
        ("**Epic ID**: MS-1\n**Story ID**: MS-10\n").data, [10]⟩ : DocResult) =
        ("EPIC_A.md" : String) ++ (": no Story ID lines updated") :=
  (claim10_counts_unpersisted demoSame).2
    ⟨("EPIC_A.md"), ("**Epic ID**: MS-1\n**Story ID**: MS-10\n").data,
      ("**Epic ID**: MS-1\n**Story ID**: MS-10\n").data, [10]⟩
    (by decide) (by decide)

end StoryIds
